import Mathlib

/-!
# ReactionReach extraction pipeline: verification of spec claims

Shallow embedding of the LinkedIn extraction pipeline code
(Stagehand/Browserbase automation patterns): the reaction harvester
(`extractPostReactions`), post discoverer (`discoverUserPosts`), auth flow
(`authenticateLinkedIn`), retry helper (`retryWithBackoff`), stealth
delays (`StealthManager`), per-post error guard, and session rotation
(`SessionManager`), together with theorems settling the specification
claims about them.

The page/network environment is modelled as explicit oracle data
(extraction batches, observe outcomes, attempt results) threaded through
otherwise-pure Lean functions mirroring the source control flow.
-/

namespace ReactionReach

/-- A reaction entry as extracted in `extractPostReactions` (zod schema:
name, profileUrl, reactionType enum, title, optional company and
connectionDegree). -/
structure Reaction where
  name : String
  profileUrl : String
  reactionType : String
  title : String
  company : Option String
  connectionDegree : Option String
deriving DecidableEq, Repr

/-- One iteration's worth of page behaviour inside the reactions modal:
the batch returned by `page.extract` and whether the subsequent
`page.observe("check if there are more reactions to load …")` returned a
non-empty result (`scrollResult.length > 0`). -/
structure ModalStep where
  batch : List Reaction
  moreToLoad : Bool
deriving DecidableEq, Repr

/-- The `while (hasMoreReactions)` loop body of `extractPostReactions`:
each pass extracts the visible batch, appends it to `allReactions`, then
observes; a non-empty observe result scrolls and continues, an empty one
sets `hasMoreReactions = false`.  The page is modelled by the list of
modal steps; `none` means the modelled page trace was exhausted while the
code would still be looping. -/
def extractLoop : List ModalStep → List Reaction → Option (List Reaction)
  | [], _ => none
  | s :: rest, allReactions =>
    let allReactions := allReactions ++ s.batch
    if s.moreToLoad then extractLoop rest allReactions else some allReactions

/-- Function `extractPostReactions`: opens the reaction modal and runs the
extraction loop starting from an empty `allReactions` accumulator. -/
def extractPostReactions (steps : List ModalStep) : Option (List Reaction) :=
  extractLoop steps []

/-- The extraction passes the loop actually consumes: every step up to and
including the first one whose observe check reports nothing more to load. -/
def consumedPasses : List ModalStep → List (List Reaction)
  | [] => []
  | s :: rest => s.batch :: (if s.moreToLoad then consumedPasses rest else [])

/-- Does `pass` contribute a fragment not already present in `prior`? -/
def passHasNew (prior pass : List Reaction) : Bool :=
  pass.any fun r => !(prior.contains r)

/-- The spec's claimed stopping condition for the harvester, evaluated on
the sequence of consumed passes: either the final two consecutive passes
contributed no new fragments, or the running fragment count reached the
post's declared reaction count. -/
def specClaimedStop (passes : List (List Reaction)) (reactionCountDeclared : Nat) : Bool :=
  (decide (2 ≤ passes.length) &&
    !passHasNew ((passes.take (passes.length - 2)).flatten)
      (passes.getD (passes.length - 2) []) &&
    !passHasNew ((passes.take (passes.length - 1)).flatten)
      (passes.getD (passes.length - 1) [])) ||
  decide (reactionCountDeclared ≤ passes.flatten.length)

/-- Index of the first pass whose observe check reports nothing more to
load: the pass at which the extraction loop clears `hasMoreReactions`. -/
def firstStopIdx : List ModalStep → Option Nat
  | [] => none
  | s :: rest => if s.moreToLoad then (firstStopIdx rest).map (· + 1) else some 0

/-- Sample reactor used in concrete counterexamples. -/
def rAlice : Reaction :=
  { name := "Alice Smith", profileUrl := "https://linkedin.com/in/alice",
    reactionType := "like", title := "Engineer", company := none,
    connectionDegree := none }

/-- Second sample reactor sharing Alice's profileUrl (same identity key,
different title line), as can happen across harvesting passes. -/
def rAliceDup : Reaction :=
  { name := "Alice Smith", profileUrl := "https://linkedin.com/in/alice",
    reactionType := "celebrate", title := "Senior Engineer", company := none,
    connectionDegree := none }

theorem extractLoop_shift (steps : List ModalStep) :
    ∀ acc, extractLoop steps acc = (extractLoop steps []).map (acc ++ ·) := by
  induction steps with
  | nil => intro acc; rfl
  | cons s rest ih =>
    intro acc
    simp only [extractLoop, List.nil_append]
    cases hm : s.moreToLoad
    · simp
    · simp only [if_pos trivial, ih (acc ++ s.batch), ih s.batch, Option.map_map]
      congr 1
      funext l
      simp [Function.comp, List.append_assoc]

theorem extractLoop_eq_flatten (steps : List ModalStep) :
    ∀ out, extractLoop steps [] = some out → out = (consumedPasses steps).flatten := by
  induction steps with
  | nil => intro out h; exact absurd h (by simp [extractLoop])
  | cons s rest ih =>
    intro out h
    simp only [extractLoop, List.nil_append] at h
    cases hm : s.moreToLoad
    · rw [hm] at h
      simp only [Bool.false_eq_true, if_false, Option.some.injEq] at h
      subst h
      simp [consumedPasses, hm]
    · rw [hm] at h
      simp only [if_pos trivial] at h
      rw [extractLoop_shift rest s.batch] at h
      rcases Option.map_eq_some'.mp h with ⟨tail, htail, hout⟩
      have := ih tail htail
      subst hout
      simp [consumedPasses, hm, this]

theorem extractPostReactions_eq_of_firstStopIdx (steps : List ModalStep) :
    ∀ i, firstStopIdx steps = some i →
      extractPostReactions steps = some (((steps.take (i + 1)).map ModalStep.batch).flatten) := by
  induction steps with
  | nil => intro i h; simp [firstStopIdx] at h
  | cons s rest ih =>
    intro i h
    simp only [firstStopIdx] at h
    cases hm : s.moreToLoad
    · rw [hm] at h
      simp only [Bool.false_eq_true, if_false, Option.some.injEq] at h
      subst h
      simp [extractPostReactions, extractLoop, hm, List.take_succ_cons]
    · rw [hm] at h
      simp only [if_pos trivial, Option.map_eq_some'] at h
      rcases h with ⟨j, hj, hij⟩
      subst hij
      have hrest := ih j hj
      simp only [extractPostReactions] at hrest ⊢
      simp only [extractLoop, List.nil_append, hm, if_pos trivial]
      rw [extractLoop_shift rest s.batch, hrest]
      simp [List.take_succ_cons]

theorem extractPostReactions_eq_none_of_noStop (steps : List ModalStep) :
    firstStopIdx steps = none → extractPostReactions steps = none := by
  induction steps with
  | nil => intro _; rfl
  | cons s rest ih =>
    intro h
    simp only [firstStopIdx] at h
    cases hm : s.moreToLoad
    · rw [hm] at h
      simp at h
    · rw [hm] at h
      simp only [if_pos trivial, Option.map_eq_none'] at h
      simp only [extractPostReactions, extractLoop, List.nil_append, hm, if_pos trivial]
      have hrest := ih h
      simp only [extractPostReactions] at hrest
      rw [extractLoop_shift rest s.batch, hrest]
      rfl

/-- C1: the spec claims the harvester loop stops exactly when two
consecutive passes add no new fragments or the running count reaches
`reactionCountDeclared`.  Counterexample: a page whose very first observe
check reports nothing more to load makes the loop stop after a single
productive pass, with the running count (1) still below the declared
count (5) — neither claimed condition holds at the stop. -/
theorem C1_counterexample :
    extractPostReactions [⟨[rAlice], false⟩] = some [rAlice] ∧
    specClaimedStop (consumedPasses [⟨[rAlice], false⟩]) 5 = false :=
  ⟨rfl, rfl⟩

/-- C1 (amended): for every post, the extraction loop stops exactly when
the modal's observe check first reports no more reactions to load: the
result is the concatenation of the batches of the passes up to and
including that first stop pass, and if no pass ever reports empty the
loop never exits.  Neither `reactionCountDeclared` nor a
two-consecutive-stalled-passes test is consulted. -/
theorem C1_extract_stops_iff_observe_empty (steps : List ModalStep) :
    extractPostReactions steps =
      (firstStopIdx steps).map fun i =>
        ((steps.take (i + 1)).map ModalStep.batch).flatten := by
  cases h : firstStopIdx steps with
  | none => simp [extractPostReactions_eq_none_of_noStop steps h]
  | some i => simp [extractPostReactions_eq_of_firstStopIdx steps i h]

/-- C2: the spec claims at most one reactor record per distinct
profileUrl, with confidence-based conflict resolution.  Counterexample:
two passes each containing a fragment with the same profileUrl produce an
output that retains both, so the identity keys of the output are not
pairwise distinct. -/
theorem C2_counterexample :
    extractPostReactions [⟨[rAlice], true⟩, ⟨[rAliceDup], false⟩] =
      some [rAlice, rAliceDup] ∧
    ¬ (((extractPostReactions [⟨[rAlice], true⟩, ⟨[rAliceDup], false⟩]).getD []).map
        Reaction.profileUrl).Nodup :=
  ⟨rfl, by decide⟩

/-- C2 (amended): the harvester performs no per-identity deduplication:
whenever the extraction loop terminates, its output is exactly the
concatenation of every consumed pass's batch, so duplicate fragments for
the same profileUrl are all retained (the extracted records carry no
confidence field at all). -/
theorem C2_harvester_accumulates_without_dedup (steps : List ModalStep)
    (out : List Reaction) (h : extractPostReactions steps = some out) :
    out = (consumedPasses steps).flatten :=
  extractLoop_eq_flatten steps out h

/-- Witness for C2: on the two-pass duplicate-key trace the theorem
evaluates to the concrete concatenated output. -/
theorem C2_witness :
    ([rAlice, rAliceDup] : List Reaction) =
      (consumedPasses [⟨[rAlice], true⟩, ⟨[rAliceDup], false⟩]).flatten :=
  C2_harvester_accumulates_without_dedup _ _ rfl

/-- The spec's error taxonomy (§7): fatal and soft error kinds surfaced by
the pipeline. -/
inductive ErrorKind where
  | unauthenticated
  | detected
  | navigationFailed
  | harvestIncomplete
  | cancelled
deriving DecidableEq, Repr

/-- Observable outcome of `authenticateLinkedIn`: whether the flow blocked
on manual operator login (console prompt + `process.stdin.once`) and the
boolean it returned. -/
structure AuthRun where
  waitedForManualLogin : Bool
  returnValue : Bool
deriving DecidableEq, Repr

/-- Function `authenticateLinkedIn`: navigates to LinkedIn, extracts whether the
user is already logged in (`isAuthenticated`, the oracle input), and if
not, prints a prompt and blocks until the operator logs in manually and
presses Enter; in every case it then returns `true`.  It never produces
an error value. -/
def authenticateLinkedIn (isAuthenticated : Bool) : Except ErrorKind AuthRun :=
  if isAuthenticated then .ok { waitedForManualLogin := false, returnValue := true }
  else .ok { waitedForManualLogin := true, returnValue := true }

/-- C3: the spec claims an unauthenticated session deterministically
reaches `Error(Unauthenticated)` (fail-fast).  Counterexample: on the
unauthenticated oracle the code instead blocks for manual operator login
and returns success; it does not produce the Unauthenticated error. -/
theorem C3_counterexample :
    authenticateLinkedIn false ≠ .error .unauthenticated ∧
    authenticateLinkedIn false =
      .ok { waitedForManualLogin := true, returnValue := true } :=
  ⟨fun h => Except.noConfusion h, rfl⟩

/-- C3 (amended): for every session state, `authenticateLinkedIn` returns
success; when the session is unauthenticated it first blocks awaiting a
manual operator login instead of failing fast with a distinct
Unauthenticated error kind. -/
theorem C3_auth_never_fails_fast (isAuthenticated : Bool) :
    authenticateLinkedIn isAuthenticated =
      .ok { waitedForManualLogin := !isAuthenticated, returnValue := true } := by
  cases isAuthenticated <;> rfl

/-- A post as extracted by `discoverUserPosts` (zod schema: url,
timestamp, content, optional engagement counts). -/
structure Post where
  url : String
  timestamp : String
  content : String
  likeCount : Option Nat
  commentCount : Option Nat
  shareCount : Option Nat
deriving DecidableEq, Repr

/-- Constant `maxScrolls = 10` in `discoverUserPosts`. -/
def maxScrolls : Nat := 10

/-- The `while (scrollAttempts < maxScrolls)` loop of `discoverUserPosts`:
each iteration extracts the currently visible batch (the oracle
`batches scrollAttempts`, already filtered by the extract instruction to
the `daysBack` window), appends it to `posts`, scrolls, and increments
`scrollAttempts`.  The structural fuel is `maxScrolls - scrollAttempts`,
the exact number of remaining iterations the loop guard allows. -/
def discoverLoop (batches : Nat → List Post) : Nat → Nat → List Post → List Post
  | 0, _, posts => posts
  | fuel + 1, scrollAttempts, posts =>
    discoverLoop batches fuel (scrollAttempts + 1) (posts ++ batches scrollAttempts)

/-- The duplicate-removal step of `discoverUserPosts`:
`posts.filter((post, index, self) => index === self.findIndex(p => p.url === post.url))`. -/
def uniquePosts (posts : List Post) : List Post :=
  (posts.enum.filter fun ip =>
    posts.findIdx (fun p => p.url == ip.2.url) == ip.1).map Prod.snd

/-- Function `discoverUserPosts`: runs the scroll/extract loop from
`scrollAttempts = 0` with an empty accumulator, then removes duplicate
URLs. -/
def discoverUserPosts (batches : Nat → List Post) : List Post :=
  uniquePosts (discoverLoop batches maxScrolls 0 [])

/-- Sample post used in concrete inputs. -/
def pHello : Post :=
  { url := "https://linkedin.com/posts/activity-1", timestamp := "2025-01-02",
    content := "hello world", likeCount := some 3, commentCount := none,
    shareCount := none }

/-- Feed oracle whose first batch is empty and whose second batch holds a
post; all later batches are empty. -/
def stalledThenPost : Nat → List Post :=
  fun i => if i = 1 then [pHello] else []

theorem discoverLoop_eq_flatten (batches : Nat → List Post) :
    ∀ fuel scrollAttempts posts,
      discoverLoop batches fuel scrollAttempts posts =
        posts ++ ((List.range' scrollAttempts fuel).map batches).flatten := by
  intro fuel
  induction fuel with
  | zero => intro i posts; simp [discoverLoop]
  | succ n ih =>
    intro i posts
    simp only [discoverLoop, ih (i + 1), List.range'_succ, List.map_cons,
      List.flatten_cons, List.append_assoc]

/-- C4: the spec claims discovery stops early when a batch yields zero
in-window posts (or on a stall counter).  Counterexample: with an empty
first batch the loop keeps scrolling and still collects the post revealed
by the second batch, so no empty-batch (or stall) early exit exists. -/
theorem C4_counterexample :
    stalledThenPost 0 = [] ∧ discoverUserPosts stalledThenPost = [pHello] :=
  ⟨rfl, by decide⟩

/-- C4 (amended): post discovery always terminates, but only because the
loop unconditionally performs exactly `maxScrolls = 10` scroll/extract
iterations — the result is always the deduplicated concatenation of the
first ten batches, with no early exit on empty batches and no
stall-attempt counter. -/
theorem C4_discovery_runs_exactly_maxScrolls (batches : Nat → List Post) :
    discoverUserPosts batches =
      uniquePosts (((List.range maxScrolls).map batches).flatten) := by
  simp [discoverUserPosts, discoverLoop_eq_flatten, List.range_eq_range']

theorem uniquePosts_sublist (l : List Post) : List.Sublist (uniquePosts l) l := by
  have h1 : List.Sublist (l.enum.filter fun ip =>
      l.findIdx (fun p => p.url == ip.2.url) == ip.1) l.enum :=
    List.filter_sublist _
  have h2 := h1.map Prod.snd
  rwa [List.enum_map_snd] at h2

theorem uniquePosts_urls_nodup (l : List Post) :
    ((uniquePosts l).map Post.url).Nodup := by
  unfold uniquePosts
  rw [List.map_map]
  have henum : l.enum.Nodup := by
    apply List.Nodup.of_map Prod.fst
    rw [List.enum_map_fst]
    exact List.nodup_range _
  have hfil : (l.enum.filter fun ip =>
      l.findIdx (fun p => p.url == ip.2.url) == ip.1).Nodup := henum.filter _
  apply List.Nodup.map_on ?_ hfil
  intro x hx y hy hxy
  rcases List.mem_filter.mp hx with ⟨hxe, hxk⟩
  rcases List.mem_filter.mp hy with ⟨hye, hyk⟩
  have hxi : l.findIdx (fun p => p.url == x.2.url) = x.1 := by simpa using hxk
  have hyi : l.findIdx (fun p => p.url == y.2.url) = y.1 := by simpa using hyk
  have hurl : x.2.url = y.2.url := hxy
  have hidx : x.1 = y.1 := by
    rw [← hxi, ← hyi, hurl]
  have hx2 : l[x.1]? = some x.2 := List.mem_enum_iff_getElem?.mp hxe
  have hy2 : l[y.1]? = some y.2 := List.mem_enum_iff_getElem?.mp hye
  rw [hidx, hy2] at hx2
  exact Prod.ext hidx (Option.some.inj hx2).symm

theorem uniquePosts_covers (l : List Post) :
    ∀ p ∈ l, ∃ q ∈ uniquePosts l, q.url = p.url := by
  intro p hp
  have hex : ∃ x ∈ l, (fun r => r.url == p.url) x = true := ⟨p, hp, by simp⟩
  have hlt : l.findIdx (fun r => r.url == p.url) < l.length :=
    List.findIdx_lt_length_of_exists hex
  refine ⟨l.get ⟨l.findIdx (fun r => r.url == p.url), hlt⟩, ?_, ?_⟩
  · have hkeep :
        (l.findIdx (fun r =>
            r.url == (l.get ⟨l.findIdx (fun r => r.url == p.url), hlt⟩).url) ==
          l.findIdx (fun r => r.url == p.url)) = true := by
      have hqp :
          (l.get ⟨l.findIdx (fun r => r.url == p.url), hlt⟩).url = p.url := by
        have hg := List.findIdx_getElem (w := hlt)
        simpa [List.get_eq_getElem] using hg
      rw [hqp]
      simp
    refine List.mem_map.mpr ⟨⟨l.findIdx (fun r => r.url == p.url),
      l.get ⟨l.findIdx (fun r => r.url == p.url), hlt⟩⟩, ?_, rfl⟩
    refine List.mem_filter.mpr ⟨?_, hkeep⟩
    exact List.mk_mem_enum_iff_getElem?.mpr (by simp [List.getElem?_eq_getElem hlt])
  · have hg := List.findIdx_getElem (w := hlt)
    simpa [List.get_eq_getElem] using hg

theorem uniquePosts_first_occurrence (l : List Post) :
    ∀ q ∈ uniquePosts l, l[l.findIdx fun r => r.url == q.url]? = some q := by
  intro q hq
  unfold uniquePosts at hq
  rcases List.mem_map.mp hq with ⟨ip, hmem, hip⟩
  rcases List.mem_filter.mp hmem with ⟨henum, hkeep⟩
  have hidx : l.findIdx (fun r => r.url == ip.2.url) = ip.1 := by simpa using hkeep
  have hget : l[ip.1]? = some ip.2 := List.mem_enum_iff_getElem?.mp henum
  rw [← hip, hidx]
  exact hget

/-- C9: post discovery's duplicate removal keeps exactly the first
occurrence of each distinct URL, in the original order: the output is a
subsequence of the input, its URLs are pairwise distinct, every input URL
is represented, and every output element sits at the first index of its
URL in the input. -/
theorem C9_uniquePosts_first_occurrences (l : List Post) :
    List.Sublist (uniquePosts l) l ∧
    ((uniquePosts l).map Post.url).Nodup ∧
    (∀ p ∈ l, ∃ q ∈ uniquePosts l, q.url = p.url) ∧
    (∀ q ∈ uniquePosts l, l[l.findIdx fun r => r.url == q.url]? = some q) :=
  ⟨uniquePosts_sublist l, uniquePosts_urls_nodup l, uniquePosts_covers l,
    uniquePosts_first_occurrence l⟩

/-- Witness for C9 on a concrete duplicated input list. -/
theorem C9_witness :
    List.Sublist (uniquePosts [pHello, pHello]) [pHello, pHello] ∧
    ∃ q ∈ uniquePosts [pHello, pHello], q.url = pHello.url :=
  ⟨(C9_uniquePosts_first_occurrences [pHello, pHello]).1,
    (C9_uniquePosts_first_occurrences [pHello, pHello]).2.2.1 pHello (by decide)⟩

/-- The four delay classes of `StealthManager.delays`. -/
inductive DelayClass where
  | betweenPosts
  | betweenReactions
  | afterScroll
  | beforeAction
deriving DecidableEq, Repr

/-- The configured per-class `(min, max)` delay range in milliseconds,
exactly the ranges wired into `StealthManager.delays`. -/
def delayRange : DelayClass → Nat × Nat
  | .betweenPosts => (2000, 5000)
  | .betweenReactions => (1000, 3000)
  | .afterScroll => (1500, 2500)
  | .beforeAction => (500, 1500)

/-- Function `randomDelay(min, max) = Math.floor(Math.random() * (max - min + 1)) + min`:
the uniform draw scaled and floored ranges over `0 .. max - min`, modelled
by reducing a seed modulo `max - min + 1`. -/
def randomDelay (mn mx r : Nat) : Nat :=
  r % (mx - mn + 1) + mn

/-- Method `humanLikeDelay(type)`: awaits a `randomDelay` over the class range. -/
def humanLikeDelay (c : DelayClass) (r : Nat) : Nat :=
  randomDelay (delayRange c).1 (delayRange c).2 r

/-- A simulated run of gated actions: each call (action class plus random
seed) awaits its class's `humanLikeDelay` and then executes; the result
pairs each action's class with its execution time in ms from the start. -/
def gateRun : List (DelayClass × Nat) → Nat → List (DelayClass × Nat)
  | [], _ => []
  | c :: rest, t =>
    let t2 := t + humanLikeDelay c.1 c.2
    (c.1, t2) :: gateRun rest t2

theorem humanLikeDelay_ge_min (c : DelayClass) (r : Nat) :
    (delayRange c).1 ≤ humanLikeDelay c r := by
  simp only [humanLikeDelay, randomDelay]
  exact Nat.le_add_left _ _

theorem gateRun_mem_lower (calls : List (DelayClass × Nat)) :
    ∀ t ct, ct ∈ gateRun calls t → t + (delayRange ct.1).1 ≤ ct.2 := by
  induction calls with
  | nil => intro t ct h; simp [gateRun] at h
  | cons c rest ih =>
    intro t ct h
    simp only [gateRun, List.mem_cons] at h
    rcases h with h | h
    · subst h
      have := humanLikeDelay_ge_min c.1 c.2
      simp only
      omega
    · have h1 := ih (t + humanLikeDelay c.1 c.2) ct h
      omega

theorem gateRun_interval (calls : List (DelayClass × Nat)) :
    ∀ (t i j : Nat) (ci : DelayClass) (ti : Nat) (cj : DelayClass) (tj : Nat), i < j →
      (gateRun calls t)[i]? = some (ci, ti) →
      (gateRun calls t)[j]? = some (cj, tj) →
      ti + (delayRange cj).1 ≤ tj := by
  induction calls with
  | nil => intro t i j ci ti cj tj hij hi hj; simp [gateRun] at hi
  | cons c rest ih =>
    intro t i j ci ti cj tj hij hi hj
    simp only [gateRun] at hi hj
    cases i with
    | zero =>
      rw [List.getElem?_cons_zero] at hi
      cases j with
      | zero => omega
      | succ j1 =>
        rw [List.getElem?_cons_succ] at hj
        have hmem : (cj, tj) ∈ gateRun rest (t + humanLikeDelay c.1 c.2) := by
          have := List.getElem?_eq_some_iff.mp hj
          obtain ⟨hlt, hget⟩ := this
          rw [← hget]
          exact List.getElem_mem hlt
        have hge := gateRun_mem_lower rest (t + humanLikeDelay c.1 c.2) (cj, tj) hmem
        have hti : ti = t + humanLikeDelay c.1 c.2 := by
          cases hi
          rfl
        simp only at hge
        omega
    | succ i1 =>
      cases j with
      | zero => omega
      | succ j1 =>
        rw [List.getElem?_cons_succ] at hi hj
        exact ih (t + humanLikeDelay c.1 c.2) i1 j1 ci ti cj tj (by omega) hi hj

/-- C5: across any simulated sequence of gated calls (1,000 calls
included), two gated actions of the same class never execute with an
observed interval below the class's configured minimum delay: the later
action runs no earlier than the earlier action's time plus that
minimum. -/
theorem C5_scheduler_min_interval (calls : List (DelayClass × Nat))
    (i j : Nat) (ci cj : DelayClass) (ti tj : Nat) (hij : i < j)
    (hi : (gateRun calls 0)[i]? = some (ci, ti))
    (hj : (gateRun calls 0)[j]? = some (cj, tj))
    (hclass : ci = cj) :
    ti + (delayRange ci).1 ≤ tj := by
  subst hclass
  exact gateRun_interval calls 0 i j ci ti ci tj hij hi hj

/-- Witness for C5: two back-to-back beforeAction calls with zero random
seeds execute at 500ms and 1000ms, honouring the 500ms class minimum. -/
theorem C5_witness :
    (500 : Nat) + (delayRange DelayClass.beforeAction).1 ≤ 1000 :=
  C5_scheduler_min_interval
    [(DelayClass.beforeAction, 0), (DelayClass.beforeAction, 0)]
    0 1 DelayClass.beforeAction DelayClass.beforeAction 500 1000
    (by decide) rfl rfl rfl

/-- The per-post guard wrapped around `extractPostReactions` (Graceful
Error Handling): `try { return await extractPostReactions(...) } catch
(error) { console.log(...); return null; }` — every thrown error, of any
kind, becomes a `null` result for that post. -/
def safeExtractPostReactions (outcome : Except ErrorKind (List Reaction)) :
    Option (List Reaction) :=
  match outcome with
  | .ok r => some r
  | .error _ => none

/-- A run over a list of posts, each with its harvest outcome, applying
the per-post guard to every post in turn. -/
def runHarvestAll (outcomes : List (Except ErrorKind (List Reaction))) :
    List (Option (List Reaction)) :=
  outcomes.map safeExtractPostReactions

/-- C6: the spec claims `Error(Detected)`/`Error(Unauthenticated)` abort
the whole run.  Counterexample: the guard turns a Detected error into a
null result like any other failure, and the run continues to process the
post after it — nothing aborts. -/
theorem C6_counterexample :
    safeExtractPostReactions (.error .detected) = none ∧
    runHarvestAll [.ok [rAlice], .error .detected, .ok [rAlice]] =
      [some [rAlice], none, some [rAlice]] :=
  ⟨rfl, rfl⟩

/-- C6 (amended): every per-post harvester failure — Detected and
Unauthenticated included — is caught and recorded as a null result
against that post, and the run always continues across all posts:
the output covers every post positionally, successes keep their
results and failures of any kind become null. -/
theorem C6_all_errors_recorded_per_post
    (outcomes : List (Except ErrorKind (List Reaction))) :
    (runHarvestAll outcomes).length = outcomes.length ∧
    (∀ (i : Nat) (k : ErrorKind), outcomes[i]? = some (.error k) →
      (runHarvestAll outcomes)[i]? = some none) ∧
    (∀ (i : Nat) (r : List Reaction), outcomes[i]? = some (.ok r) →
      (runHarvestAll outcomes)[i]? = some (some r)) := by
  refine ⟨by simp [runHarvestAll], ?_, ?_⟩
  · intro i k h
    simp [runHarvestAll, List.getElem?_map, h, safeExtractPostReactions]
  · intro i r h
    simp [runHarvestAll, List.getElem?_map, h, safeExtractPostReactions]

/-- Witness for C6: a Detected failure at position 1 is recorded as null. -/
theorem C6_witness :
    (runHarvestAll [.ok [rAlice], .error .detected])[1]? = some none :=
  (C6_all_errors_recorded_per_post [.ok [rAlice], .error .detected]).2.1 1
    ErrorKind.detected rfl

/-- Result of a `retryWithBackoff` run: success at some attempt, the
rethrow of the final attempt's error, or the unreachable-for-positive-
maxRetries "Max retries exceeded" throw; each carries the backoff sleeps
performed along the way. -/
inductive RetryResult (E A : Type) where
  | success (a : A) (attempt : Nat) (delays : List Nat)
  | failure (e : E) (delays : List Nat)
  | exhausted (delays : List Nat)
deriving DecidableEq, Repr

/-- Prepends one performed backoff sleep to a retry outcome's log. -/
def addDelay {E A : Type} (d : Nat) : RetryResult E A → RetryResult E A
  | .success a k ds => .success a k (d :: ds)
  | .failure e ds => .failure e (d :: ds)
  | .exhausted ds => .exhausted (d :: ds)

/-- The `for (let attempt = 1; attempt <= maxRetries; attempt++)` loop of
`retryWithBackoff`: try the operation; on the final attempt's failure
rethrow the error, otherwise sleep `baseDelay * 2 ** (attempt - 1)` and
continue; falling out of the loop throws "Max retries exceeded".  The
structural fuel is the number of attempts the guard still permits. -/
def retryAux {E A : Type} (op : Nat → Except E A) (maxRetries baseDelay : Nat) :
    Nat → Nat → RetryResult E A
  | 0, _ => .exhausted []
  | remaining + 1, attempt =>
    match op attempt with
    | .ok a => .success a attempt []
    | .error e =>
      if attempt = maxRetries then .failure e []
      else addDelay (baseDelay * 2 ^ (attempt - 1))
        (retryAux op maxRetries baseDelay remaining (attempt + 1))

/-- Method `retryWithBackoff(operation, maxRetries = 3, baseDelay = 1000)`. -/
def retryWithBackoff {E A : Type} (op : Nat → Except E A)
    (maxRetries baseDelay : Nat) : RetryResult E A :=
  retryAux op maxRetries baseDelay maxRetries 1

theorem retryAux_success {E A : Type} (op : Nat → Except E A) (m b : Nat) :
    ∀ remaining attempt a k ds,
      remaining + attempt = m + 1 →
      retryAux op m b remaining attempt = .success a k ds →
      attempt ≤ k ∧ k ≤ m ∧ op k = .ok a ∧
        ds = (List.range' attempt (k - attempt)).map fun j => b * 2 ^ (j - 1) := by
  intro remaining
  induction remaining with
  | zero =>
    intro attempt a k ds hsum h
    exact absurd h (by simp [retryAux])
  | succ n ih =>
    intro attempt a k ds hsum h
    cases hop : op attempt with
    | ok a0 =>
      simp only [retryAux, hop] at h
      cases h
      refine ⟨Nat.le_refl _, by omega, hop, by simp⟩
    | error e =>
      simp only [retryAux, hop] at h
      by_cases hfin : attempt = m
      · rw [if_pos hfin] at h
        exact absurd h (by simp)
      · rw [if_neg hfin] at h
        cases hrec : retryAux op m b n (attempt + 1) with
        | success a1 k1 ds1 =>
          rw [hrec] at h
          simp only [addDelay, RetryResult.success.injEq] at h
          obtain ⟨ha, hk, hds⟩ := h
          subst ha; subst hk
          obtain ⟨hk1, hk2, hk3, hk4⟩ := ih (attempt + 1) a1 k1 ds1 (by omega) hrec
          refine ⟨by omega, hk2, hk3, ?_⟩
          have hsplit : k1 - attempt = (k1 - (attempt + 1)) + 1 := by omega
          rw [← hds, hk4, hsplit, List.range'_succ]
          simp
        | failure e1 ds1 =>
          rw [hrec] at h
          exact absurd h (by simp [addDelay])
        | exhausted ds1 =>
          rw [hrec] at h
          exact absurd h (by simp [addDelay])

theorem retryAux_allfail {E A : Type} (op : Nat → Except E A) (m b : Nat) :
    ∀ remaining attempt,
      remaining + attempt = m + 1 → 1 ≤ attempt → attempt ≤ m →
      (∀ j, attempt ≤ j → j ≤ m → ∃ e, op j = .error e) →
      ∃ e, op m = .error e ∧
        retryAux op m b remaining attempt =
          .failure e ((List.range' attempt (m - attempt)).map
            fun j => b * 2 ^ (j - 1)) := by
  intro remaining
  induction remaining with
  | zero => intro attempt hsum h1 hm hall; omega
  | succ n ih =>
    intro attempt hsum h1 hm hall
    obtain ⟨e, he⟩ := hall attempt (Nat.le_refl _) hm
    by_cases hfin : attempt = m
    · subst hfin
      refine ⟨e, he, ?_⟩
      simp [retryAux, he]
    · have hlt : attempt < m := Nat.lt_of_le_of_ne hm hfin
      obtain ⟨e2, he2, hrec⟩ := ih (attempt + 1) (by omega) (by omega) (by omega)
        (fun j hj1 hj2 => hall j (by omega) hj2)
      refine ⟨e2, he2, ?_⟩
      simp only [retryAux, he, if_neg hfin]
      rw [hrec]
      simp only [addDelay, RetryResult.failure.injEq, true_and]
      have hsplit : m - attempt = (m - (attempt + 1)) + 1 := by omega
      rw [hsplit, List.range'_succ]
      simp

/-- C7: retries are scoped to a single action and bounded: a successful
run used at most `maxRetries` attempts with the exponential backoff
sleeps `baseDelay * 2 ^ (attempt - 1)` between attempts, and when every
permitted attempt fails the final attempt's error escalates (is
rethrown) after exactly those backoff sleeps — there is no further
retry beyond the bound. -/
theorem C7_retryWithBackoff_bounded {E A : Type} (op : Nat → Except E A)
    (m b : Nat) (hm : 1 ≤ m) :
    (∀ a k ds, retryWithBackoff op m b = .success a k ds →
      1 ≤ k ∧ k ≤ m ∧ op k = .ok a ∧
        ds = (List.range' 1 (k - 1)).map fun j => b * 2 ^ (j - 1)) ∧
    ((∀ j, 1 ≤ j → j ≤ m → ∃ e, op j = .error e) →
      ∃ e, op m = .error e ∧
        retryWithBackoff op m b =
          .failure e ((List.range' 1 (m - 1)).map fun j => b * 2 ^ (j - 1))) := by
  constructor
  · intro a k ds h
    exact retryAux_success op m b m 1 a k ds (by omega) h
  · intro hall
    exact retryAux_allfail op m b m 1 (by omega) (Nat.le_refl 1) hm hall

/-- Witness for C7: an always-failing operation with `maxRetries = 3`,
`baseDelay = 100` escalates the third attempt's error after backoff
sleeps of 100ms and 200ms. -/
theorem C7_witness :
    ∃ e, (fun j => (Except.error j : Except Nat Nat)) 3 = .error e ∧
      retryWithBackoff (fun j => (Except.error j : Except Nat Nat)) 3 100 =
        .failure e ((List.range' 1 (3 - 1)).map fun j => 100 * 2 ^ (j - 1)) :=
  (C7_retryWithBackoff_bounded (fun j => (Except.error j : Except Nat Nat))
    3 100 (by decide)).2 (fun j _ _ => ⟨j, rfl⟩)

/-- Confidence levels for normalized reactor records (spec §4.6). -/
inductive Confidence where
  | low
  | high
deriving DecidableEq, Repr

/-- Modelled from the spec: `ReactorFragment`, a raw possibly-incomplete
scraped unit — any subset of name, profileUrl, titleLine, reactionKind
(§3). -/
structure ReactorFragment where
  name : Option String
  profileUrl : Option String
  titleLine : Option String
  reactionKind : Option String
deriving DecidableEq, Repr

/-- Modelled from the spec: `ReactorRecord`, the canonical output unit
with `profileUrl` as the stable identity key (§3). -/
structure ReactorRecord where
  name : String
  profileUrl : String
  title : Option String
  company : Option String
  reactionKind : Option String
  confidence : Confidence
deriving DecidableEq, Repr

/-- Modelled from the spec: best-effort "Role at Company" splitting of a
fragment's free-text title line (§4.6; `normalize` has no implementation
under the visible source, only the spec's description). -/
def parseTitleLine (line : String) : Option String × Option String :=
  match line.splitOn " at " with
  | [] => (none, none)
  | [t] => (some t, none)
  | t :: rest => (some t, some (String.intercalate " at " rest))

/-- Modelled from the spec: one fragment becomes a record when its
identity fields (name, profileUrl) resolved; confidence is `high` when
all core fields parsed (title and company included), `low` when only
name/profileUrl resolved (§4.6). -/
def normalizeFragment (f : ReactorFragment) : Option ReactorRecord :=
  match f.name, f.profileUrl with
  | some n, some u =>
    let parsed := match f.titleLine with
      | some line => parseTitleLine line
      | none => (none, none)
    some { name := n, profileUrl := u, title := parsed.1, company := parsed.2,
           reactionKind := f.reactionKind,
           confidence :=
             if parsed.1.isSome ∧ parsed.2.isSome then .high else .low }
  | _, _ => none

/-- Modelled from the spec: fold one record into the per-identity-key
accumulator — the first record with the same identity key is replaced
only when the incoming record's confidence is strictly higher, ties
broken by first-seen (§4.6). -/
def dedupInsert (r : ReactorRecord) : List ReactorRecord → List ReactorRecord
  | [] => [r]
  | q :: rest =>
    if q.profileUrl = r.profileUrl then
      (if q.confidence = Confidence.low ∧ r.confidence = Confidence.high
        then r else q) :: rest
    else q :: dedupInsert r rest

/-- Modelled from the spec: `normalize(fragments) -> ReactorRecord[]`,
parsing each fragment then deduplicating by identity key (§4.6). -/
def normalize (fragments : List ReactorFragment) : List ReactorRecord :=
  (fragments.filterMap normalizeFragment).foldl (fun acc r => dedupInsert r acc) []

theorem dedupInsert_urls_subset (r : ReactorRecord) :
    ∀ (acc : List ReactorRecord) (u : String),
      u ∈ (dedupInsert r acc).map ReactorRecord.profileUrl →
      u ∈ acc.map ReactorRecord.profileUrl ∨ u = r.profileUrl := by
  intro acc
  induction acc with
  | nil =>
    intro u h
    simp [dedupInsert] at h
    right; exact h
  | cons q rest ih =>
    intro u h
    simp only [dedupInsert] at h
    by_cases hq : q.profileUrl = r.profileUrl
    · rw [if_pos hq] at h
      by_cases hc : q.confidence = Confidence.low ∧ r.confidence = Confidence.high
      · rw [if_pos hc] at h
        simp only [List.map_cons, List.mem_cons] at h
        rcases h with h | h
        · left; simp [List.map_cons, List.mem_cons, hq, h]
        · left; simp [List.map_cons, List.mem_cons, h]
      · rw [if_neg hc] at h
        left; exact h
    · rw [if_neg hq] at h
      simp only [List.map_cons, List.mem_cons] at h
      rcases h with h | h
      · left; simp [List.map_cons, List.mem_cons, h]
      · rcases ih u h with h2 | h2
        · left; simp [List.map_cons, List.mem_cons, h2]
        · right; exact h2

theorem dedupInsert_urls_nodup (r : ReactorRecord) :
    ∀ acc : List ReactorRecord,
      (acc.map ReactorRecord.profileUrl).Nodup →
      ((dedupInsert r acc).map ReactorRecord.profileUrl).Nodup := by
  intro acc
  induction acc with
  | nil => intro _; simp [dedupInsert]
  | cons q rest ih =>
    intro hnd
    simp only [List.map_cons, List.nodup_cons] at hnd
    obtain ⟨hq_notin, hrest⟩ := hnd
    simp only [dedupInsert]
    by_cases hq : q.profileUrl = r.profileUrl
    · rw [if_pos hq]
      by_cases hc : q.confidence = Confidence.low ∧ r.confidence = Confidence.high
      · rw [if_pos hc]
        simp only [List.map_cons, List.nodup_cons]
        exact ⟨by rw [← hq]; exact hq_notin, hrest⟩
      · rw [if_neg hc]
        simp only [List.map_cons, List.nodup_cons]
        exact ⟨hq_notin, hrest⟩
    · rw [if_neg hq]
      simp only [List.map_cons, List.nodup_cons]
      refine ⟨?_, ih hrest⟩
      intro hmem
      rcases dedupInsert_urls_subset r rest q.profileUrl hmem with h | h
      · exact hq_notin h
      · exact hq h

theorem foldl_dedup_urls_nodup (rs : List ReactorRecord) :
    ∀ acc : List ReactorRecord,
      (acc.map ReactorRecord.profileUrl).Nodup →
      ((rs.foldl (fun a r => dedupInsert r a) acc).map
        ReactorRecord.profileUrl).Nodup := by
  induction rs with
  | nil => intro acc h; exact h
  | cons r rs ih =>
    intro acc h
    exact ih _ (dedupInsert_urls_nodup r acc h)

/-- C8: `normalize` is a pure function — running it twice on the same
fragment set yields identical output — and its output contains at most
one ReactorRecord per distinct identity key (the profileUrls of the
output are pairwise distinct). -/
theorem C8_normalize_pure_and_keyed (fragments : List ReactorFragment) :
    normalize fragments = normalize fragments ∧
    ((normalize fragments).map ReactorRecord.profileUrl).Nodup :=
  ⟨rfl, foldl_dedup_urls_nodup _ [] (by simp)⟩

/-- Field `maxSessionDuration = 30 * 60 * 1000` ms (30 minutes). -/
def maxSessionDuration : Int := 30 * 60 * 1000

/-- Class `SessionManager`'s rotation-relevant state: `sessionStartTime` in
epoch milliseconds, set by the constructor and reset on rotation. -/
structure SessionManager where
  sessionStartTime : Int
deriving DecidableEq, Repr

/-- The constructor body `this.sessionStartTime = new Date()`. -/
def mkSessionManager (now : Int) : SessionManager :=
  { sessionStartTime := now }

/-- Method `shouldRotateSession()`: the elapsed duration `now - sessionStartTime`
strictly exceeds `maxSessionDuration`. -/
def shouldRotateSession (s : SessionManager) (now : Int) : Bool :=
  now - s.sessionStartTime > maxSessionDuration

/-- Method `rotateSession()`: closes and recreates the browser session, then
resets `sessionStartTime = new Date()`. -/
def rotateSession (s : SessionManager) (now : Int) : SessionManager :=
  { s with sessionStartTime := now }

/-- C10: `shouldRotateSession` returns true exactly when strictly more
than 30 minutes (30 * 60 * 1000 ms) have elapsed since the session was
created or last rotated. -/
theorem C10_shouldRotate_after_30_minutes (t now : Int) (s : SessionManager) :
    maxSessionDuration = 30 * 60 * 1000 ∧
    (shouldRotateSession (mkSessionManager t) now = true ↔
      now - t > 30 * 60 * 1000) ∧
    (shouldRotateSession (rotateSession s t) now = true ↔
      now - t > 30 * 60 * 1000) := by
  refine ⟨rfl, ?_, ?_⟩ <;>
    simp [shouldRotateSession, mkSessionManager, rotateSession, maxSessionDuration]

end ReactionReach
